import Mathlib

/-!
Verification of the author-attribution notebook (Lesson 05).

The notebook builds a character-level classifier for two authors and
attributes unknown papers by majority voting over fixed-length character
subsequences.  Text is modelled as a list of character codes (`List Nat`),
model predictions as rationals in place of floats, and fallible numpy
operations return `Option`.
-/

namespace AuthorAttribution

/-- Class label for author A (source: `A = 0`). -/
def A : Int := 0

/-- Class label for author B (source: `B = 1`). -/
def B : Int := 1

/-- Class label for unknown documents (source: `UNKNOWN = -1`). -/
def UNKNOWN : Int := -1

/-- Sequence-length hyperparameter (source: `SEQ_LEN = 30`). -/
def SEQ_LEN : Nat := 30

/-- The float literal `0.5` of the source, exactly representable as a rational. -/
def half : ℚ := mkRat 1 2

/-- Source: `y = y > 0.5` — elementwise thresholding of the model's
prediction vector. -/
def thresholded (preds : List ℚ) : List Bool :=
  preds.map (fun p => decide (p > half))

/-- Source: `votes_for_authorA = np.sum(y==0)` — the number of thresholded
predictions equal to `False`. -/
def votes_for_authorA (preds : List ℚ) : Nat :=
  (thresholded preds).count false

/-- Source: `votes_for_authorB = np.sum(y==1)` — the number of thresholded
predictions equal to `True`. -/
def votes_for_authorB (preds : List ℚ) : Nat :=
  (thresholded preds).count true

/-- Source: `"Author A" if votes_for_authorA > votes_for_authorB else "Author B"`. -/
def predictedAuthor (preds : List ℚ) : String :=
  if votes_for_authorB preds < votes_for_authorA preds then "Author A" else "Author B"

/-- Source: `max(votes_for_authorA, votes_for_authorB), min(votes_for_authorA,
votes_for_authorB)` — the two counts printed with the verdict. -/
def printedCounts (preds : List ℚ) : Nat × Nat :=
  (max (votes_for_authorA preds) (votes_for_authorB preds),
   min (votes_for_authorA preds) (votes_for_authorB preds))

theorem count_false_add_count_true (l : List Bool) :
    l.count false + l.count true = l.length := by
  induction l with
  | nil => rfl
  | cons b t ih =>
    cases b <;> simp [List.count_cons] <;> omega

/-- C1: the program prints "Author A" exactly when the count of subsequences
predicted as author A strictly exceeds the count predicted as author B, and
prints "Author B" in every other case (ties included), together with the
larger and the smaller of the two vote counts. -/
theorem predictedAuthor_majority (preds : List ℚ) :
    (predictedAuthor preds = "Author A" ↔
      votes_for_authorB preds < votes_for_authorA preds) ∧
    (predictedAuthor preds = "Author B" ↔
      votes_for_authorA preds ≤ votes_for_authorB preds) ∧
    printedCounts preds =
      (max (votes_for_authorA preds) (votes_for_authorB preds),
       min (votes_for_authorA preds) (votes_for_authorB preds)) := by
  have hAB : ("Author A" : String) ≠ "Author B" := by decide
  unfold predictedAuthor
  by_cases h : votes_for_authorB preds < votes_for_authorA preds
  · rw [if_pos h]
    exact ⟨⟨fun _ => h, fun _ => rfl⟩,
           ⟨fun hs => absurd hs hAB, fun hle => absurd h (by omega)⟩, rfl⟩
  · rw [if_neg h]
    exact ⟨⟨fun hs => absurd hs.symm hAB, fun hlt => absurd hlt h⟩,
           ⟨fun _ => by omega, fun _ => rfl⟩, rfl⟩

/-- Witness for C1 at a concrete prediction vector: a 1–1 tie is reported
as "Author B". -/
theorem predictedAuthor_majority_witness :
    predictedAuthor [mkRat 1 4, mkRat 3 4] = "Author B" ∧
    printedCounts [mkRat 1 4, mkRat 3 4] = (1, 1) :=
  ⟨(predictedAuthor_majority [mkRat 1 4, mkRat 3 4]).2.1.mpr (by decide),
   by rw [(predictedAuthor_majority [mkRat 1 4, mkRat 3 4]).2.2]; decide⟩

/-- C4: every thresholded prediction casts exactly one vote — `False` entries
vote for author A, `True` entries vote for author B, and the two vote counts
sum to the number of predictions. -/
theorem votes_partition (preds : List ℚ) :
    votes_for_authorA preds = (thresholded preds).count false ∧
    votes_for_authorB preds = (thresholded preds).count true ∧
    votes_for_authorA preds + votes_for_authorB preds = preds.length := by
  refine ⟨rfl, rfl, ?_⟩
  unfold votes_for_authorA votes_for_authorB
  rw [count_false_add_count_true]
  simp [thresholded]

/-- Witness for C4 at a concrete prediction vector. -/
theorem votes_partition_witness :
    votes_for_authorA [mkRat 1 4, mkRat 3 4, mkRat 2 3] +
      votes_for_authorB [mkRat 1 4, mkRat 3 4, mkRat 2 3] = 3 :=
  (votes_partition [mkRat 1 4, mkRat 3 4, mkRat 2 3]).2.2

/-- Source: `make_subsequences(long_sequence, label, sequence_length=SEQ_LEN)`.
`X = np.zeros(((len_sequences - sequence_length)+1, sequence_length))` raises
when the first dimension is negative, modelled by `none`; otherwise row `i`
is `long_sequence[i:i+sequence_length]` and `y[i] = label`. -/
def make_subsequences (long_sequence : List Nat) (label : Int)
    (sequence_length : Nat) : Option (List (List Nat) × List (List Int)) :=
  let len_sequences := long_sequence.length
  let nrows : Int := ((len_sequences : Int) - (sequence_length : Int)) + 1
  if nrows < 0 then none
  else some
    ((List.range nrows.toNat).map
        (fun i => (long_sequence.drop i).take sequence_length),
     (List.range nrows.toNat).map (fun _ => [label]))

/-- Source: `np.vstack` — row-wise stacking of two matrices. -/
def vstack (m₁ m₂ : List (List α)) : List (List α) := m₁ ++ m₂

/-- Source: `.reshape(-1, SEQ_LEN)` — numpy reshape of the row-major flat
buffer into rows of width `SEQ_LEN`, with fuel for structural recursion. -/
def reshapeFuel : Nat → List Nat → List (List Nat)
  | _, [] => []
  | 0, l => [l]
  | fuel+1, c :: l => ((c :: l).take SEQ_LEN) :: reshapeFuel fuel ((c :: l).drop SEQ_LEN)

/-- Source: `.reshape(-1, SEQ_LEN)` applied to a flat buffer. -/
def reshape_seq (flat : List Nat) : List (List Nat) := reshapeFuel flat.length flat

theorem make_subsequences_eq (long_sequence : List Nat) (label : Int)
    (sequence_length : Nat) (h : sequence_length ≤ long_sequence.length) :
    make_subsequences long_sequence label sequence_length =
      some
        ((List.range (long_sequence.length - sequence_length + 1)).map
            (fun i => (long_sequence.drop i).take sequence_length),
         (List.range (long_sequence.length - sequence_length + 1)).map
            (fun _ => [label])) := by
  unfold make_subsequences
  have hn : ¬ (((long_sequence.length : Int) - (sequence_length : Int)) + 1 < 0) := by
    omega
  rw [if_neg hn]
  have ht : (((long_sequence.length : Int) - (sequence_length : Int)) + 1).toNat =
      long_sequence.length - sequence_length + 1 := by
    omega
  rw [ht]

theorem make_subsequences_some_lengths {s : List Nat} {label : Int} {k : Nat}
    {X : List (List Nat)} {y : List (List Int)}
    (h : make_subsequences s label k = some (X, y)) : X.length = y.length := by
  unfold make_subsequences at h
  dsimp only at h
  by_cases hc : (((s.length : Int) - (k : Int)) + 1 < 0)
  · rw [if_pos hc] at h
    exact absurd h (by simp)
  · rw [if_neg hc] at h
    injection h with h
    obtain ⟨h1, h2⟩ := Prod.mk.inj h
    rw [← h1, ← h2]
    simp

/-- C2: shape consistency across the pipeline — for a sequence of length
`L ≥ 30`, `make_subsequences` yields `X` of shape `(L - 30 + 1, 30)` and `y`
of shape `(L - 30 + 1, 1)`; `vstack` of the two authors' outputs gives `X`
and `y` with equal row counts; and `reshape(-1, SEQ_LEN)` of a matrix whose
rows have width 30 returns the matrix unchanged. -/
theorem pipeline_shapes :
    (∀ (seq : List Nat) (label : Int), 30 ≤ seq.length →
      ∃ X y, make_subsequences seq label SEQ_LEN = some (X, y) ∧
        X.length = seq.length - 30 + 1 ∧ (∀ r ∈ X, r.length = 30) ∧
        y.length = seq.length - 30 + 1 ∧ (∀ r ∈ y, r.length = 1)) ∧
    (∀ (seqA seqB : List Nat) (XA XB : List (List Nat)) (yA yB : List (List Int)),
      make_subsequences seqA A SEQ_LEN = some (XA, yA) →
      make_subsequences seqB B SEQ_LEN = some (XB, yB) →
      (vstack XA XB).length = (vstack yA yB).length) ∧
    (∀ m : List (List Nat), (∀ r ∈ m, r.length = SEQ_LEN) →
      reshape_seq m.flatten = m) := by
  refine ⟨?_, ?_, ?_⟩
  · intro seq label hL
    rw [make_subsequences_eq seq label SEQ_LEN (by simpa [SEQ_LEN] using hL)]
    refine ⟨_, _, rfl, by simp [SEQ_LEN], ?_, by simp [SEQ_LEN], ?_⟩
    · intro r hr
      rcases List.mem_map.mp hr with ⟨i, hi, rfl⟩
      have hi' : i < seq.length - 30 + 1 := by
        simpa [SEQ_LEN] using List.mem_range.mp hi
      simp only [List.length_take, List.length_drop, SEQ_LEN]
      omega
    · intro r hr
      rcases List.mem_map.mp hr with ⟨i, _, rfl⟩
      rfl
  · intro seqA seqB XA XB yA yB hA hB
    simp [vstack, make_subsequences_some_lengths hA, make_subsequences_some_lengths hB]
  · intro m hm
    have key : ∀ (mm : List (List Nat)), (∀ r ∈ mm, r.length = SEQ_LEN) →
        ∀ fuel, mm.flatten.length ≤ fuel → reshapeFuel fuel mm.flatten = mm := by
      intro mm
      induction mm with
      | nil => intro _ fuel _; cases fuel <;> rfl
      | cons r m' ih =>
        intro hw fuel hf
        have hr : r.length = SEQ_LEN := hw r (by simp)
        have hw' : ∀ t ∈ m', t.length = SEQ_LEN := fun t ht => hw t (by simp [ht])
        rcases r with _ | ⟨c, r0⟩
        · exact absurd hr (by simp [SEQ_LEN])
        have hflat : (((c :: r0) :: m').flatten) = c :: (r0 ++ m'.flatten) := by
          simp
        rcases fuel with _ | f
        · exfalso
          rw [hflat] at hf
          simp at hf
        rw [hflat]
        show ((c :: (r0 ++ m'.flatten)).take SEQ_LEN) ::
            reshapeFuel f ((c :: (r0 ++ m'.flatten)).drop SEQ_LEN) = (c :: r0) :: m'
        have hcr : c :: (r0 ++ m'.flatten) = (c :: r0) ++ m'.flatten := by simp
        rw [hcr, List.take_left' hr, List.drop_left' hr]
        have hf' : m'.flatten.length ≤ f := by
          rw [hflat] at hf
          simp at hf
          simp [hr] at *
          omega
        rw [ih hw' f hf']
    exact key m hm (m.flatten.length) le_rfl

/-- Witness for C2: shape consistency evaluated at concrete inputs. -/
theorem pipeline_shapes_witness :
    (∃ X y, make_subsequences (List.range 31) 0 SEQ_LEN = some (X, y) ∧
        X.length = (List.range 31).length - 30 + 1 ∧ (∀ r ∈ X, r.length = 30) ∧
        y.length = (List.range 31).length - 30 + 1 ∧ (∀ r ∈ y, r.length = 1)) ∧
    (vstack [List.range 30] [List.range 30]).length =
      (vstack [[(0 : Int)]] [[(1 : Int)]]).length ∧
    reshape_seq ([List.range 30] : List (List Nat)).flatten = [List.range 30] :=
  ⟨pipeline_shapes.1 (List.range 31) 0 (by simp),
   pipeline_shapes.2.1 (List.range 30) (List.range 30)
     [List.range 30] [List.range 30] [[(0 : Int)]] [[(1 : Int)]]
     (by decide) (by decide),
   pipeline_shapes.2.2 [List.range 30]
     (by intro r hr; simp only [List.mem_singleton] at hr; simp [hr, SEQ_LEN])⟩

/-- C3: `make_subsequences` produces exactly the stride-1 sliding windows of
its input — for every sequence of length at least `sequence_length` and every
admissible index `i`, row `X[i]` is `long_sequence[i:i+sequence_length]` and
`y[i]` is the given label. -/
theorem make_subsequences_windows (seq : List Nat) (label : Int) (k : Nat)
    (hL : k ≤ seq.length) (i : Nat) (hi : i ≤ seq.length - k) :
    ∃ X y, make_subsequences seq label k = some (X, y) ∧
      X[i]? = some ((seq.drop i).take k) ∧ y[i]? = some [label] := by
  rw [make_subsequences_eq seq label k hL]
  refine ⟨_, _, rfl, ?_, ?_⟩
  · have hir : i < seq.length - k + 1 := by omega
    simp [List.getElem?_map, List.getElem?_range, hir]
  · have hir : i < seq.length - k + 1 := by omega
    simp [List.getElem?_map, List.getElem?_range, hir]

/-- Witness for C3 at a concrete sequence and index. -/
theorem make_subsequences_windows_witness :
    ∃ X y, make_subsequences (List.range 31) UNKNOWN 30 = some (X, y) ∧
      X[1]? = some (((List.range 31).drop 1).take 30) ∧ y[1]? = some [UNKNOWN] :=
  make_subsequences_windows (List.range 31) UNKNOWN 30 (by simp) 1 (by simp)

/-! ### The preprocessing function

`preprocess_text` (source cell 3) reads a file, drops its first line, joins
the remaining lines with spaces, replaces newlines and double spaces by
single spaces, lower-cases, deletes the two author names, and finally
whitespace-normalizes with `' '.join(text.split())`.  Text is a list of
character codes. -/

/-- Whitespace test of Python `str.split()` with no arguments: space, tab,
newline, carriage return, vertical tab, form feed. -/
def isPySpace (c : Nat) : Bool :=
  decide (c = 32 ∨ c = 9 ∨ c = 10 ∨ c = 13 ∨ c = 11 ∨ c = 12)

/-- ASCII upper-case letter test. -/
def isUpperCode (c : Nat) : Bool := decide (65 ≤ c ∧ c ≤ 90)

/-- Source: `.lower()` on one character code (ASCII range). -/
def toLowerCode (c : Nat) : Nat := if 65 ≤ c ∧ c ≤ 90 then c + 32 else c

/-- Source: `.lower()` on a string. -/
def pyLower (s : List Nat) : List Nat := s.map toLowerCode

/-- Source: `str.replace(old, new)` — a single left-to-right pass that
rewrites each non-overlapping occurrence of `old` and resumes scanning after
it.  Fuel makes the recursion structural; it is always called with
`fuel = length` and a nonempty `old`. -/
def pyReplaceFuel (old new : List Nat) : Nat → List Nat → List Nat
  | _, [] => []
  | 0, s => s
  | fuel+1, c :: rest =>
    if old.isPrefixOf (c :: rest) then
      new ++ pyReplaceFuel old new fuel (rest.drop (old.length - 1))
    else c :: pyReplaceFuel old new fuel rest

/-- Source: `s.replace(old, new)`. -/
def pyReplace (s old new : List Nat) : List Nat := pyReplaceFuel old new s.length s

/-- Source: `' '.join(...)` — interleave a single space between the parts. -/
def joinSpace : List (List Nat) → List Nat
  | [] => []
  | [t] => t
  | t :: t' :: ts => t ++ 32 :: joinSpace (t' :: ts)

/-- Source: `str.split()` with no arguments — the maximal whitespace-free
runs, with empty tokens dropped; `cur` accumulates the current token in
reverse. -/
def pySplitAux (cur : List Nat) : List Nat → List (List Nat)
  | [] => if cur = [] then [] else [cur.reverse]
  | c :: rest =>
    if isPySpace c then
      if cur = [] then pySplitAux [] rest else cur.reverse :: pySplitAux [] rest
    else pySplitAux (c :: cur) rest

/-- Source: `str.split()` with no arguments. -/
def pySplit (s : List Nat) : List (List Nat) := pySplitAux [] s

/-- Source: `f.readlines()` — the lines of the file content, each keeping its
trailing newline; `cur` accumulates the current line in reverse. -/
def readlinesAux (cur : List Nat) : List Nat → List (List Nat)
  | [] => if cur = [] then [] else [cur.reverse]
  | c :: rest =>
    if c = 10 then (cur.reverse ++ [10]) :: readlinesAux [] rest
    else readlinesAux (c :: cur) rest

/-- Source: `f.readlines()`. -/
def readlines (content : List Nat) : List (List Nat) := readlinesAux [] content

/-- The character codes of the string `'hamilton'`. -/
def hamilton : List Nat := [104, 97, 109, 105, 108, 116, 111, 110]

/-- The character codes of the string `'madison'`. -/
def madison : List Nat := [109, 97, 100, 105, 115, 111, 110]

/-- The intermediate text of `preprocess_text` just after `.lower()`:
`' '.join(lines[1:]).replace("\n", ' ').replace('  ', ' ').lower()`. -/
def loweredText (content : List Nat) : List Nat :=
  pyLower (pyReplace (pyReplace (joinSpace ((readlines content).drop 1))
    [10] [32]) [32, 32] [32])

/-- The intermediate text just after `.replace('hamilton', '')`. -/
def hamiltonRemoved (content : List Nat) : List Nat :=
  pyReplace (loweredText content) hamilton []

/-- Source: `preprocess_text(file_path)` — the full preprocessing function,
from raw file content to the normalized text. -/
def preprocess_text (content : List Nat) : List Nat :=
  joinSpace (pySplit (pyReplace (hamiltonRemoved content) madison []))

/-! ### Basic properties of the preprocessing pieces -/

theorem pyReplaceFuel_nil (old new : List Nat) (f : Nat) :
    pyReplaceFuel old new f [] = [] := by
  cases f <;> rfl

/-- Deleting occurrences (`new = []`) yields a sublist of the input. -/
theorem pyReplaceFuel_delete_sublist (old : List Nat) :
    ∀ f s, List.Sublist (pyReplaceFuel old [] f s) s := by
  intro f
  induction f with
  | zero =>
    intro s
    cases s with
    | nil => exact List.Sublist.refl _
    | cons c rest => exact List.Sublist.refl _
  | succ f ih =>
    intro s
    cases s with
    | nil => exact List.Sublist.refl _
    | cons c rest =>
      show List.Sublist (if old.isPrefixOf (c :: rest) then
          [] ++ pyReplaceFuel old [] f (rest.drop (old.length - 1))
        else c :: pyReplaceFuel old [] f rest) (c :: rest)
      split
      · exact (((ih _).trans (List.drop_sublist _ _)).trans
          (List.sublist_cons_self c rest))
      · exact List.cons_sublist_cons.mpr (ih rest)

theorem pyReplace_delete_sublist (s old : List Nat) : List.Sublist (pyReplace s old []) s :=
  pyReplaceFuel_delete_sublist old s.length s

/-- Every token produced by `pySplitAux` is nonempty and whitespace-free,
with characters drawn from the accumulator or the input. -/
theorem pySplitAux_tokens :
    ∀ (s cur : List Nat), (∀ c ∈ cur, isPySpace c = false) →
      ∀ t ∈ pySplitAux cur s,
        t ≠ [] ∧ ∀ c ∈ t, isPySpace c = false ∧ (c ∈ cur ∨ c ∈ s) := by
  intro s
  induction s with
  | nil =>
    intro cur hcur t ht
    unfold pySplitAux at ht
    split at ht
    · exact absurd ht (by simp)
    · rename_i hc
      rw [List.mem_singleton] at ht
      subst ht
      refine ⟨by simpa using hc, ?_⟩
      intro c hc'
      rw [List.mem_reverse] at hc'
      exact ⟨hcur c hc', Or.inl hc'⟩
  | cons a rest ih =>
    intro cur hcur t ht
    unfold pySplitAux at ht
    by_cases hsp : isPySpace a = true
    · rw [if_pos hsp] at ht
      by_cases hc : cur = []
      · rw [if_pos hc] at ht
        have := ih [] (by simp) t ht
        refine ⟨this.1, fun c hc' => ⟨(this.2 c hc').1, ?_⟩⟩
        rcases (this.2 c hc').2 with h | h
        · exact absurd h (by simp)
        · exact Or.inr (List.mem_cons_of_mem a h)
      · rw [if_neg hc] at ht
        rcases List.mem_cons.mp ht with rfl | ht'
        · refine ⟨by simpa using hc, ?_⟩
          intro c hc'
          rw [List.mem_reverse] at hc'
          exact ⟨hcur c hc', Or.inl hc'⟩
        · have := ih [] (by simp) t ht'
          refine ⟨this.1, fun c hc' => ⟨(this.2 c hc').1, ?_⟩⟩
          rcases (this.2 c hc').2 with h | h
          · exact absurd h (by simp)
          · exact Or.inr (List.mem_cons_of_mem a h)
    · rw [if_neg hsp] at ht
      have hcur' : ∀ c ∈ a :: cur, isPySpace c = false := by
        intro c hc
        rcases List.mem_cons.mp hc with rfl | hc'
        · simpa using hsp
        · exact hcur c hc'
      have := ih (a :: cur) hcur' t ht
      refine ⟨this.1, fun c hc' => ⟨(this.2 c hc').1, ?_⟩⟩
      rcases (this.2 c hc').2 with h | h
      · rcases List.mem_cons.mp h with rfl | h'
        · exact Or.inr (List.mem_cons_self _ _)
        · exact Or.inl h'
      · exact Or.inr (List.mem_cons_of_mem a h)

/-- Every token produced by `pySplitAux` is an infix of accumulator plus
input. -/
theorem pySplitAux_infix :
    ∀ (s cur : List Nat), ∀ t ∈ pySplitAux cur s, t <:+: cur.reverse ++ s := by
  intro s
  induction s with
  | nil =>
    intro cur t ht
    unfold pySplitAux at ht
    split at ht
    · exact absurd ht (by simp)
    · rw [List.mem_singleton] at ht
      subst ht
      simp
  | cons a rest ih =>
    intro cur t ht
    unfold pySplitAux at ht
    by_cases hsp : isPySpace a = true
    · rw [if_pos hsp] at ht
      have step : t ∈ pySplitAux [] rest → t <:+: cur.reverse ++ a :: rest := by
        intro ht'
        have := ih [] t ht'
        simp only [List.reverse_nil, List.nil_append] at this
        refine this.trans ?_
        exact ((List.suffix_cons a rest).isInfix).trans
          ((List.suffix_append _ _).isInfix)
      by_cases hc : cur = []
      · rw [if_pos hc] at ht
        exact step ht
      · rw [if_neg hc] at ht
        rcases List.mem_cons.mp ht with rfl | ht'
        · exact ( List.prefix_append _ _).isInfix
        · exact step ht'
    · rw [if_neg hsp] at ht
      have := ih (a :: cur) t ht
      simpa using this

/-- Characters of `joinSpace` come from the parts or are the space 32. -/
theorem joinSpace_mem :
    ∀ (ts : List (List Nat)) (c : Nat), c ∈ joinSpace ts →
      c = 32 ∨ ∃ t ∈ ts, c ∈ t := by
  intro ts
  induction ts with
  | nil => intro c hc; exact absurd hc (by simp [joinSpace])
  | cons t ts ih =>
    intro c hc
    cases ts with
    | nil =>
      exact Or.inr ⟨t, by simp, by simpa [joinSpace] using hc⟩
    | cons t' ts' =>
      rw [show joinSpace (t :: t' :: ts') = t ++ 32 :: joinSpace (t' :: ts') from rfl]
        at hc
      rcases List.mem_append.mp hc with h | h
      · exact Or.inr ⟨t, by simp, h⟩
      · rcases List.mem_cons.mp h with rfl | h'
        · exact Or.inl rfl
        · rcases ih c h' with h32 | ⟨u, hu, hcu⟩
          · exact Or.inl h32
          · exact Or.inr ⟨u, List.mem_cons_of_mem t hu, hcu⟩

/-- The property that a string has no two consecutive whitespace characters. -/
def noTwoWS : List Nat → Prop
  | a :: b :: l => ¬ (isPySpace a = true ∧ isPySpace b = true) ∧ noTwoWS (b :: l)
  | _ => True

theorem noTwoWS_cons (a : Nat) (l : List Nat) :
    noTwoWS (a :: l) ↔
      (∀ b, l.head? = some b → ¬ (isPySpace a = true ∧ isPySpace b = true)) ∧
      noTwoWS l := by
  cases l with
  | nil => simp [noTwoWS]
  | cons b l' =>
    show (¬ _ ∧ noTwoWS (b :: l')) ↔ _
    constructor
    · rintro ⟨h1, h2⟩
      refine ⟨?_, h2⟩
      intro b' hb'
      have : b = b' := by simpa using hb'
      subst this
      exact h1
    · rintro ⟨h1, h2⟩
      exact ⟨h1 b rfl, h2⟩

theorem noTwoWS_append (t r : List Nat) (ht : ∀ c ∈ t, isPySpace c = false)
    (hr : noTwoWS r) : noTwoWS (t ++ r) := by
  induction t with
  | nil => simpa
  | cons a t' ih =>
    rw [List.cons_append, noTwoWS_cons]
    refine ⟨?_, ih (fun c hc => ht c (List.mem_cons_of_mem a hc))⟩
    intro b _ hab
    have ha : isPySpace a = false := ht a (List.mem_cons_self _ _)
    rw [ha] at hab
    exact absurd hab.1 (by simp)

theorem noTwoWS_of_all (t : List Nat) (h : ∀ c ∈ t, isPySpace c = false) :
    noTwoWS t := by
  have := noTwoWS_append t [] h trivial
  simpa using this

theorem joinSpace_head (t : List Nat) (ts : List (List Nat)) (hne : t ≠ []) :
    (joinSpace (t :: ts)).head? = t.head? := by
  cases ts with
  | nil => rfl
  | cons t' ts' =>
    show (t ++ 32 :: joinSpace (t' :: ts')).head? = t.head?
    cases t with
    | nil => exact absurd rfl hne
    | cons a t0 => rfl

/-- Joining nonempty whitespace-free tokens with single spaces yields a
string with no two consecutive whitespace characters. -/
theorem joinSpace_noTwoWS :
    ∀ ts : List (List Nat), (∀ t ∈ ts, t ≠ [] ∧ ∀ c ∈ t, isPySpace c = false) →
      noTwoWS (joinSpace ts) := by
  intro ts
  induction ts with
  | nil => intro _; trivial
  | cons t ts ih =>
    intro h
    obtain ⟨hne, hch⟩ := h t (List.mem_cons_self _ _)
    have hrest : ∀ u ∈ ts, u ≠ [] ∧ ∀ c ∈ u, isPySpace c = false :=
      fun u hu => h u (List.mem_cons_of_mem t hu)
    cases ts with
    | nil => exact noTwoWS_of_all t hch
    | cons t' ts' =>
      show noTwoWS (t ++ 32 :: joinSpace (t' :: ts'))
      apply noTwoWS_append t _ hch
      rw [noTwoWS_cons]
      refine ⟨?_, ih hrest⟩
      intro b hb hab
      obtain ⟨hne', hch'⟩ := hrest t' (List.mem_cons_self _ _)
      rw [joinSpace_head t' ts' hne'] at hb
      cases t' with
      | nil => exact absurd rfl hne'
      | cons a t0 =>
        have hab' : a = b := by simpa using hb
        subst hab'
        have := hch' a (List.mem_cons_self _ _)
        rw [this] at hab
        exact absurd hab.2 (by simp)

theorem pyLower_no_upper (s : List Nat) :
    ∀ c ∈ pyLower s, isUpperCode c = false := by
  intro c hc
  rcases List.mem_map.mp hc with ⟨d, _, rfl⟩
  simp only [isUpperCode, toLowerCode]
  split <;> (rw [decide_eq_false_iff_not]; omega)

/-- Characters of the final output of `preprocess_text`: each is either the
single space inserted by the join, or a whitespace-free character of the
lower-cased intermediate text. -/
theorem preprocess_text_chars (content : List Nat) :
    ∀ c ∈ preprocess_text content,
      c = 32 ∨ (isPySpace c = false ∧ c ∈ loweredText content) := by
  intro c hc
  unfold preprocess_text at hc
  rcases joinSpace_mem _ c hc with h32 | ⟨t, ht, hct⟩
  · exact Or.inl h32
  · have htok := pySplitAux_tokens _ [] (by simp) t ht
    obtain ⟨hsp, hmem⟩ := htok.2 c hct
    refine Or.inr ⟨hsp, ?_⟩
    rcases hmem with h | h
    · exact absurd h (by simp)
    · have h1 : c ∈ hamiltonRemoved content :=
        (pyReplace_delete_sublist (hamiltonRemoved content) madison).subset h
      exact (pyReplace_delete_sublist (loweredText content) hamilton).subset h1

theorem readlinesAux_append_newline :
    ∀ (l cur rest : List Nat), 10 ∉ l →
      readlinesAux cur (l ++ 10 :: rest) =
        (cur.reverse ++ l ++ [10]) :: readlinesAux [] rest := by
  intro l
  induction l with
  | nil =>
    intro cur rest _
    simp [readlinesAux]
  | cons a l' ih =>
    intro cur rest h10
    have ha : ¬ (a = 10) := fun h => h10 (h ▸ List.mem_cons_self _ _)
    show (if a = 10 then _ else readlinesAux (a :: cur) (l' ++ 10 :: rest)) = _
    rw [if_neg ha, ih (a :: cur) rest (fun h => h10 (List.mem_cons_of_mem a h))]
    simp

/-- C5: for every input file the returned string is fully lower-case (no
ASCII upper-case letter survives), contains no newline and no two
consecutive whitespace characters, and the first line of the file
contributes nothing to the result. -/
theorem preprocess_text_clean :
    (∀ content : List Nat,
      (∀ c ∈ preprocess_text content, isUpperCode c = false) ∧
      10 ∉ preprocess_text content ∧
      noTwoWS (preprocess_text content)) ∧
    (∀ l₁ l₂ rest : List Nat, 10 ∉ l₁ → 10 ∉ l₂ →
      preprocess_text (l₁ ++ 10 :: rest) = preprocess_text (l₂ ++ 10 :: rest)) := by
  constructor
  · intro content
    refine ⟨?_, ?_, ?_⟩
    · intro c hc
      rcases preprocess_text_chars content c hc with rfl | ⟨_, hmem⟩
      · decide
      · exact pyLower_no_upper _ c hmem
    · intro hc
      rcases preprocess_text_chars content 10 hc with h32 | ⟨hsp, _⟩
      · omega
      · exact absurd hsp (by simp [isPySpace])
    · unfold preprocess_text
      apply joinSpace_noTwoWS
      intro t ht
      have htok := pySplitAux_tokens _ [] (by simp) t ht
      exact ⟨htok.1, fun c hc => (htok.2 c hc).1⟩
  · intro l₁ l₂ rest h₁ h₂
    unfold preprocess_text hamiltonRemoved loweredText readlines
    rw [readlinesAux_append_newline l₁ [] rest h₁,
        readlinesAux_append_newline l₂ [] rest h₂]
    simp

/-- Witness for C5 at a concrete file content. -/
theorem preprocess_text_clean_witness :
    noTwoWS (preprocess_text [72, 105, 10, 65, 32, 32, 66, 10, 67]) ∧
    preprocess_text ([72, 105] ++ 10 :: [97, 98]) =
      preprocess_text ([120] ++ 10 :: [97, 98]) :=
  ⟨(preprocess_text_clean.1 [72, 105, 10, 65, 32, 32, 66, 10, 67]).2.2,
   preprocess_text_clean.2 [72, 105] [120] [97, 98] (by decide) (by decide)⟩

/-! ### Removal of the author names

The notebook removes `'hamilton'` and `'madison'` with one `str.replace`
pass each.  A single pass deletes every occurrence present in its input, but
deleting an occurrence juxtaposes its two neighbourhoods and can thereby
manufacture a brand-new occurrence, so the output is name-free only under a
side condition on where the names occur. -/

/-- Decidable check: every occurrence of `pat` in `s` is immediately followed
by a space or by the end of the string. -/
def followedBySpace (pat s : List Nat) : Bool :=
  (List.range (s.length + 1)).all
    (fun i => !(pat.isPrefixOf (s.drop i)) || ((s.drop (i + pat.length)).headD 32 == 32))

/-- Propositional form of `followedBySpace`. -/
def OccFollowedBySpace (pat s : List Nat) : Prop :=
  ∀ u v : List Nat, s = u ++ pat ++ v → v = [] ∨ ∃ w, v = 32 :: w

theorem followedBySpace_iff (pat s : List Nat) :
    followedBySpace pat s = true ↔ OccFollowedBySpace pat s := by
  unfold followedBySpace OccFollowedBySpace
  rw [List.all_eq_true]
  constructor
  · intro h u v huv
    have hi : u.length ∈ List.range (s.length + 1) := by
      rw [List.mem_range, huv]
      simp
      omega
    have hcond := h _ hi
    rw [Bool.or_eq_true] at hcond
    have hdrop : s.drop u.length = pat ++ v := by
      rw [huv, List.append_assoc, List.drop_left]
    rcases hcond with hpre | hd
    · exfalso
      rw [Bool.not_eq_true', hdrop] at hpre
      have : pat.isPrefixOf (pat ++ v) = true :=
        ( List.isPrefixOf_iff_prefix).mpr ( List.prefix_append pat v)
      rw [this] at hpre
      exact absurd hpre (by simp)
    · have hv : s.drop (u.length + pat.length) = v := by
        rw [huv, List.drop_left' (by simp)]
      rw [hv] at hd
      cases v with
      | nil => exact Or.inl rfl
      | cons c w =>
        right
        have hc : c = 32 := by simpa using hd
        exact ⟨w, by rw [hc]⟩
  · intro h i hi
    rw [Bool.or_eq_true]
    by_cases hpre : pat.isPrefixOf (s.drop i) = true
    · right
      obtain ⟨v, hv⟩ := ( List.isPrefixOf_iff_prefix).mp hpre
      have hs : s = s.take i ++ (pat ++ v) := by
        conv_lhs => rw [← List.take_append_drop i s]
        rw [← hv]
      have hdv : s.drop (i + pat.length) = v := by
        rw [← List.drop_drop, ← hv, List.drop_left]
      rcases h (s.take i) v
          (by conv_lhs => rw [hs]
              rw [List.append_assoc]) with rfl | ⟨w, rfl⟩
      · rw [hdv]
        rfl
      · rw [hdv]
        rfl
    · left
      simp only [Bool.not_eq_true'] at hpre ⊢
      simp [Bool.not_eq_true', hpre]

/-- The space-free prefix of a string. -/
def sfp (l : List Nat) : List Nat := l.takeWhile (fun c => c != 32)

theorem sfp_isPre (l : List Nat) : sfp l <+: l := List.takeWhile_prefix _

theorem prefix_sfp_of_no_space {p : List Nat} (h32 : 32 ∉ p) :
    ∀ {l : List Nat}, p <+: l → p <+: sfp l := by
  induction p with
  | nil => intro l _; exact List.nil_prefix
  | cons a p' ih =>
    intro l hp
    cases l with
    | nil => exact absurd hp (by simp)
    | cons b l' =>
      rw [List.cons_prefix_cons] at hp
      obtain ⟨rfl, hp'⟩ := hp
      have ha : a ≠ 32 := fun h => h32 (h ▸ List.mem_cons_self _ _)
      unfold sfp
      rw [List.takeWhile_cons_of_pos (by simpa using ha)]
      rw [List.cons_prefix_cons]
      exact ⟨rfl, ih (fun h => h32 (List.mem_cons_of_mem a h)) hp'⟩

theorem sfp_cons_space (l : List Nat) : sfp (32 :: l) = [] := by
  unfold sfp
  rw [List.takeWhile_cons_of_neg (by simp)]

theorem drop_of_append_cons {pat t rest : List Nat} {c : Nat} (hne : pat ≠ [])
    (ht : pat ++ t = c :: rest) : rest.drop (pat.length - 1) = t := by
  have h1 : (c :: rest).drop pat.length = t := by
    rw [← ht, List.drop_left]
  rcases pat with _ | ⟨p0, pr⟩
  · exact absurd rfl hne
  · simpa using h1

theorem isPrefixOf_space_false {pat : List Nat} (hne : pat ≠ []) (h32 : 32 ∉ pat)
    (w : List Nat) : pat.isPrefixOf (32 :: w) = false := by
  rcases pat with _ | ⟨p0, pr⟩
  · exact absurd rfl hne
  · have hp0 : p0 ≠ 32 := fun h => h32 (h ▸ List.mem_cons_self _ _)
    simp [List.isPrefixOf_cons₂, hp0]

theorem occFollowedBySpace_tail {pat rest : List Nat} {c : Nat}
    (hP : OccFollowedBySpace pat (c :: rest)) : OccFollowedBySpace pat rest :=
  fun u v huv => hP (c :: u) v (by simp [huv])

/-- Invariant of the deletion pass: the space-free prefix of the output is a
prefix of the space-free prefix of the input, provided every occurrence of
the (nonempty, space-free) pattern is followed by a space or the end. -/
theorem pyReplaceFuel_sfp (pat : List Nat) (hne : pat ≠ []) (h32 : 32 ∉ pat) :
    ∀ f s, s.length ≤ f → OccFollowedBySpace pat s →
      sfp (pyReplaceFuel pat [] f s) <+: sfp s := by
  intro f
  induction f with
  | zero =>
    intro s hf _
    have hs : s = [] := List.length_eq_zero.mp (Nat.le_zero.mp hf)
    subst hs
    rw [pyReplaceFuel_nil]
  | succ f ih =>
    intro s hf hP
    cases s with
    | nil =>
      rw [pyReplaceFuel_nil]
    | cons c rest =>
      show sfp (if pat.isPrefixOf (c :: rest) then
          [] ++ pyReplaceFuel pat [] f (rest.drop (pat.length - 1))
        else c :: pyReplaceFuel pat [] f rest) <+: sfp (c :: rest)
      by_cases hpre : pat.isPrefixOf (c :: rest) = true
      · rw [if_pos hpre, List.nil_append]
        obtain ⟨t, ht⟩ := ( List.isPrefixOf_iff_prefix).mp hpre
        rw [drop_of_append_cons hne ht]
        rcases hP [] t (by simp [← ht]) with rfl | ⟨w, rfl⟩
        · rw [pyReplaceFuel_nil]
          exact List.nil_prefix
        · have hlent : (32 :: w).length ≤ f := by
            have hlen := congrArg List.length ht
            rcases pat with _ | ⟨p0, pr⟩
            · exact absurd rfl hne
            · simp at hlen hf
              simp
              omega
          rcases f with _ | f1
          · simp at hlent
          · show sfp (if pat.isPrefixOf (32 :: w) then
                [] ++ pyReplaceFuel pat [] f1 (w.drop (pat.length - 1))
              else 32 :: pyReplaceFuel pat [] f1 w) <+: sfp (c :: rest)
            rw [if_neg (by simp [isPrefixOf_space_false hne h32 w]), sfp_cons_space]
            exact List.nil_prefix
      · rw [if_neg hpre]
        have hfr : rest.length ≤ f := by
          simp at hf
          omega
        have ihr := ih rest hfr (occFollowedBySpace_tail hP)
        by_cases hc : c = 32
        · subst hc
          rw [sfp_cons_space, sfp_cons_space]
        · unfold sfp
          rw [List.takeWhile_cons_of_pos (by simpa using hc),
              List.takeWhile_cons_of_pos (by simpa using hc),
              List.cons_prefix_cons]
          exact ⟨rfl, ihr⟩

/-- A single deletion pass leaves no occurrence of the deleted pattern when
every occurrence in the input is followed by a space or the end. -/
theorem pyReplaceFuel_no_occ (pat : List Nat) (hne : pat ≠ []) (h32 : 32 ∉ pat) :
    ∀ f s, s.length ≤ f → OccFollowedBySpace pat s →
      ¬ pat <:+: pyReplaceFuel pat [] f s := by
  intro f
  induction f with
  | zero =>
    intro s hf _ hocc
    have hs : s = [] := List.length_eq_zero.mp (Nat.le_zero.mp hf)
    subst hs
    rw [pyReplaceFuel_nil] at hocc
    exact hne (List.infix_nil.mp hocc)
  | succ f ih =>
    intro s hf hP hocc
    cases s with
    | nil =>
      rw [pyReplaceFuel_nil] at hocc
      exact hne (List.infix_nil.mp hocc)
    | cons c rest =>
      rw [show pyReplaceFuel pat [] (f+1) (c :: rest) =
          (if pat.isPrefixOf (c :: rest) then
            [] ++ pyReplaceFuel pat [] f (rest.drop (pat.length - 1))
          else c :: pyReplaceFuel pat [] f rest) from rfl] at hocc
      by_cases hpre : pat.isPrefixOf (c :: rest) = true
      · rw [if_pos hpre, List.nil_append] at hocc
        obtain ⟨t, ht⟩ := ( List.isPrefixOf_iff_prefix).mp hpre
        rw [drop_of_append_cons hne ht] at hocc
        have hlent : t.length ≤ f := by
          have hlen := congrArg List.length ht
          rcases pat with _ | ⟨p0, pr⟩
          · exact absurd rfl hne
          · simp at hlen hf
            omega
        have hPt : OccFollowedBySpace pat t := by
          intro u v huv
          exact hP (pat ++ u) v (by rw [← ht, huv]; simp)
        exact ih t hlent hPt hocc
      · rw [if_neg hpre] at hocc
        rcases List.infix_cons_iff.mp hocc with hocc1 | hocc2
        · have hval : pyReplaceFuel pat [] (f+1) (c :: rest) =
              c :: pyReplaceFuel pat [] f rest := by
            rw [show pyReplaceFuel pat [] (f+1) (c :: rest) =
                (if pat.isPrefixOf (c :: rest) then
                  [] ++ pyReplaceFuel pat [] f (rest.drop (pat.length - 1))
                else c :: pyReplaceFuel pat [] f rest) from rfl, if_neg hpre]
          have h1 : pat <+: sfp (pyReplaceFuel pat [] (f+1) (c :: rest)) := by
            rw [hval]
            exact prefix_sfp_of_no_space h32 hocc1
          have h2 := pyReplaceFuel_sfp pat hne h32 (f+1) (c :: rest) hf hP
          have h3 : pat <+: (c :: rest) := (h1.trans h2).trans (sfp_isPre _)
          exact hpre (( List.isPrefixOf_iff_prefix).mpr h3)
        · exact ih rest (by simp at hf; omega) (occFollowedBySpace_tail hP) hocc2

/-- Deleting one pattern cannot create an occurrence of another nonempty
space-free pattern that was absent from the input, when every occurrence of
the deleted pattern is followed by a space or the end. -/
theorem pyReplaceFuel_no_new_occ (pat other : List Nat)
    (hne : pat ≠ []) (h32 : 32 ∉ pat) (hone : other ≠ []) (h32o : 32 ∉ other) :
    ∀ f s, s.length ≤ f → OccFollowedBySpace pat s → ¬ other <:+: s →
      ¬ other <:+: pyReplaceFuel pat [] f s := by
  intro f
  induction f with
  | zero =>
    intro s hf _ _ hocc
    have hs : s = [] := List.length_eq_zero.mp (Nat.le_zero.mp hf)
    subst hs
    rw [pyReplaceFuel_nil] at hocc
    exact hone (List.infix_nil.mp hocc)
  | succ f ih =>
    intro s hf hP hso hocc
    cases s with
    | nil =>
      rw [pyReplaceFuel_nil] at hocc
      exact hone (List.infix_nil.mp hocc)
    | cons c rest =>
      rw [show pyReplaceFuel pat [] (f+1) (c :: rest) =
          (if pat.isPrefixOf (c :: rest) then
            [] ++ pyReplaceFuel pat [] f (rest.drop (pat.length - 1))
          else c :: pyReplaceFuel pat [] f rest) from rfl] at hocc
      by_cases hpre : pat.isPrefixOf (c :: rest) = true
      · rw [if_pos hpre, List.nil_append] at hocc
        obtain ⟨t, ht⟩ := ( List.isPrefixOf_iff_prefix).mp hpre
        rw [drop_of_append_cons hne ht] at hocc
        have hlent : t.length ≤ f := by
          have hlen := congrArg List.length ht
          rcases pat with _ | ⟨p0, pr⟩
          · exact absurd rfl hne
          · simp at hlen hf
            omega
        have hPt : OccFollowedBySpace pat t := by
          intro u v huv
          exact hP (pat ++ u) v (by rw [← ht, huv]; simp)
        have hsot : ¬ other <:+: t := by
          intro hot
          exact hso (hot.trans (List.IsSuffix.isInfix ⟨pat, ht⟩))
        exact ih t hlent hPt hsot hocc
      · rw [if_neg hpre] at hocc
        rcases List.infix_cons_iff.mp hocc with hocc1 | hocc2
        · have hval : pyReplaceFuel pat [] (f+1) (c :: rest) =
              c :: pyReplaceFuel pat [] f rest := by
            rw [show pyReplaceFuel pat [] (f+1) (c :: rest) =
                (if pat.isPrefixOf (c :: rest) then
                  [] ++ pyReplaceFuel pat [] f (rest.drop (pat.length - 1))
                else c :: pyReplaceFuel pat [] f rest) from rfl, if_neg hpre]
          have h1 : other <+: sfp (pyReplaceFuel pat [] (f+1) (c :: rest)) := by
            rw [hval]
            exact prefix_sfp_of_no_space h32o hocc1
          have h2 := pyReplaceFuel_sfp pat hne h32 (f+1) (c :: rest) hf hP
          have h3 : other <+: (c :: rest) := (h1.trans h2).trans (sfp_isPre _)
          exact hso h3.isInfix
        · have hsor : ¬ other <:+: rest := fun hor => hso (List.infix_cons hor)
          exact ih rest (by simp at hf; omega) (occFollowedBySpace_tail hP) hsor hocc2

theorem prefix_append_cons_of_not_mem {pat : List Nat} (h32 : 32 ∉ pat) :
    ∀ {l₁ l₂ : List Nat}, pat <+: l₁ ++ 32 :: l₂ → pat <+: l₁ := by
  induction pat with
  | nil => intro l₁ l₂ _; exact List.nil_prefix
  | cons a p' ih =>
    intro l₁ l₂ hp
    cases l₁ with
    | nil =>
      rw [List.nil_append, List.cons_prefix_cons] at hp
      exact absurd hp.1 (fun h => h32 (h ▸ List.mem_cons_self _ _))
    | cons b l₁' =>
      rw [List.cons_append, List.cons_prefix_cons] at hp
      obtain ⟨rfl, hp'⟩ := hp
      rw [List.cons_prefix_cons]
      exact ⟨rfl, ih (fun h => h32 (List.mem_cons_of_mem a h)) hp'⟩

theorem infix_append_cons_split {pat : List Nat} (hne : pat ≠ []) (h32 : 32 ∉ pat) :
    ∀ (l₁ l₂ : List Nat), pat <:+: l₁ ++ 32 :: l₂ → pat <:+: l₁ ∨ pat <:+: l₂ := by
  intro l₁
  induction l₁ with
  | nil =>
    intro l₂ h
    rw [List.nil_append] at h
    rcases List.infix_cons_iff.mp h with hp | hi
    · exfalso
      cases pat with
      | nil => exact hne rfl
      | cons a p' =>
        rw [List.cons_prefix_cons] at hp
        obtain ⟨ha, _⟩ := hp
        subst ha
        exact h32 (List.mem_cons_self _ _)
    · exact Or.inr hi
  | cons b l₁' ih =>
    intro l₂ h
    rw [List.cons_append] at h
    rcases List.infix_cons_iff.mp h with hp | hi
    · left
      have hp' : pat <+: (b :: l₁') ++ 32 :: l₂ := by
        rw [List.cons_append]
        exact hp
      exact ( prefix_append_cons_of_not_mem h32 hp').isInfix
    · rcases ih l₂ hi with h1 | h2
      · exact Or.inl (List.infix_cons h1)
      · exact Or.inr h2

theorem joinSpace_infix_split {pat : List Nat} (hne : pat ≠ []) (h32 : 32 ∉ pat) :
    ∀ ts : List (List Nat), pat <:+: joinSpace ts → ∃ t ∈ ts, pat <:+: t := by
  intro ts
  induction ts with
  | nil =>
    intro h
    rw [show joinSpace [] = [] from rfl] at h
    exact absurd (List.infix_nil.mp h) hne
  | cons t ts ih =>
    intro h
    cases ts with
    | nil =>
      exact ⟨t, List.mem_cons_self _ _, by simpa [joinSpace] using h⟩
    | cons t' ts' =>
      rw [show joinSpace (t :: t' :: ts') = t ++ 32 :: joinSpace (t' :: ts') from rfl] at h
      rcases infix_append_cons_split hne h32 t (joinSpace (t' :: ts')) h with h1 | h2
      · exact ⟨t, List.mem_cons_self _ _, h1⟩
      · obtain ⟨u, hu, hp⟩ := ih h2
        exact ⟨u, List.mem_cons_of_mem t hu, hp⟩

/-- The final whitespace normalization cannot introduce an occurrence of a
space-free pattern. -/
theorem joinSpace_pySplit_no_occ {pat : List Nat} (hne : pat ≠ []) (h32 : 32 ∉ pat)
    (text : List Nat) (h : ¬ pat <:+: text) :
    ¬ pat <:+: joinSpace (pySplit text) := by
  intro hocc
  obtain ⟨t, ht, hp⟩ := joinSpace_infix_split hne h32 (pySplit text) hocc
  have hinf := pySplitAux_infix text [] t ht
  simp only [List.reverse_nil, List.nil_append] at hinf
  exact h (hp.trans hinf)

/-- C6 (amended): the returned string contains no occurrence of 'hamilton'
and none of 'madison' provided every occurrence of 'hamilton' in the
lower-cased intermediate text, and every occurrence of 'madison' in the text
after 'hamilton'-removal, is immediately followed by a space or by the end
of the text.  Without that proviso the claim fails: deleting an occurrence
juxtaposes its two sides and can manufacture a new occurrence. -/
theorem preprocess_text_no_names (content : List Nat)
    (h1 : followedBySpace hamilton (loweredText content) = true)
    (h2 : followedBySpace madison (hamiltonRemoved content) = true) :
    ¬ hamilton <:+: preprocess_text content ∧
    ¬ madison <:+: preprocess_text content := by
  have hneH : hamilton ≠ [] := by decide
  have h32H : 32 ∉ hamilton := by decide
  have hneM : madison ≠ [] := by decide
  have h32M : 32 ∉ madison := by decide
  have hP1 := (followedBySpace_iff hamilton (loweredText content)).mp h1
  have hP2 := (followedBySpace_iff madison (hamiltonRemoved content)).mp h2
  have hs1 : ¬ hamilton <:+: hamiltonRemoved content :=
    pyReplaceFuel_no_occ hamilton hneH h32H _ _ le_rfl hP1
  have hs2m : ¬ madison <:+: pyReplace (hamiltonRemoved content) madison [] :=
    pyReplaceFuel_no_occ madison hneM h32M _ _ le_rfl hP2
  have hs2h : ¬ hamilton <:+: pyReplace (hamiltonRemoved content) madison [] :=
    pyReplaceFuel_no_new_occ madison hamilton hneM h32M hneH h32H _ _ le_rfl hP2 hs1
  exact ⟨joinSpace_pySplit_no_occ hneH h32H _ hs2h,
         joinSpace_pySplit_no_occ hneM h32M _ hs2m⟩

/-- Counterexample for C6 as stated: for the file `"\nhamhamiltonilton"` the
single replace pass deletes the one occurrence of 'hamilton' and thereby
juxtaposes 'ham' with 'ilton', so the returned string is exactly 'hamilton';
symmetrically `"\nmadmadisonison"` yields 'madison'. -/
theorem preprocess_text_names_cex :
    hamilton <:+:
      preprocess_text ([10, 104, 97, 109] ++ hamilton ++ [105, 108, 116, 111, 110]) ∧
    madison <:+:
      preprocess_text ([10, 109, 97, 100] ++ madison ++ [105, 115, 111, 110]) := by
  constructor
  · have h : preprocess_text ([10, 104, 97, 109] ++ hamilton ++ [105, 108, 116, 111, 110]) =
        hamilton := by decide
    rw [h]
  · have h : preprocess_text ([10, 109, 97, 100] ++ madison ++ [105, 115, 111, 110]) =
        madison := by decide
    rw [h]

/-- Witness for the amended C6 at the file `"a\nhamilton x"`, whose single
name occurrence is followed by a space: the result contains neither name. -/
theorem preprocess_text_no_names_witness :
    ¬ hamilton <:+: preprocess_text ([97, 10] ++ hamilton ++ [32, 120]) ∧
    ¬ madison <:+: preprocess_text ([97, 10] ++ hamilton ++ [32, 120]) :=
  preprocess_text_no_names ([97, 10] ++ hamilton ++ [32, 120]) (by decide) (by decide)

/-! ### Error propagation and the attribution of one unknown paper -/

/-- Source: `tokenizer.texts_to_sequences` — a fitted character-level
tokenizer maps each known character to its index and silently skips unknown
characters. -/
def texts_to_sequences (tok : Nat → Option Nat) (text : List Nat) : List Nat :=
  text.filterMap tok

/-- Source: the body of the prediction loop for one unknown paper —
preprocess, encode with the fitted tokenizer, window with
`make_subsequences`, reshape, predict each row, and vote.  Failures (an
unreadable file as input, a negative `np.zeros` dimension) propagate as
`none`; nothing is caught. -/
def attributeDoc (tok : Nat → Option Nat) (model : List Nat → ℚ)
    (readResult : Option (List Nat)) : Option (String × Nat × Nat) :=
  readResult.bind (fun content =>
    (make_subsequences (texts_to_sequences tok (preprocess_text content))
        UNKNOWN SEQ_LEN).map (fun Xy =>
      let preds := (reshape_seq Xy.1.flatten).map model
      (predictedAuthor preds, printedCounts preds)))

theorem make_subsequences_none_iff (seq : List Nat) (label : Int) :
    make_subsequences seq label SEQ_LEN = none ↔ seq.length < SEQ_LEN - 1 := by
  unfold make_subsequences
  dsimp only
  by_cases hc : (((seq.length : Int) - (SEQ_LEN : Int)) + 1 < 0)
  · rw [if_pos hc]
    constructor
    · intro _
      simp only [SEQ_LEN] at hc ⊢
      omega
    · intro _
      rfl
  · rw [if_neg hc]
    simp only [SEQ_LEN] at hc ⊢
    constructor
    · intro h
      exact absurd h (by simp)
    · intro h
      exfalso
      omega

/-- C7: no operation catches errors — `make_subsequences` fails exactly when
the encoded sequence is shorter than `SEQ_LEN - 1` (the first `np.zeros`
dimension is negative), and any failure while reading or windowing an
unknown paper propagates so that no attribution at all is produced for it. -/
theorem error_propagation :
    (∀ (seq : List Nat) (label : Int),
      make_subsequences seq label SEQ_LEN = none ↔ seq.length < SEQ_LEN - 1) ∧
    (∀ (tok : Nat → Option Nat) (model : List Nat → ℚ),
      attributeDoc tok model none = none) ∧
    (∀ (tok : Nat → Option Nat) (model : List Nat → ℚ) (content : List Nat),
      (texts_to_sequences tok (preprocess_text content)).length < SEQ_LEN - 1 →
      attributeDoc tok model (some content) = none) := by
  refine ⟨make_subsequences_none_iff, fun _ _ => rfl, ?_⟩
  intro tok model content h
  unfold attributeDoc
  rw [Option.some_bind, (make_subsequences_none_iff _ _).mpr h]
  rfl

/-- Witness for C7: the empty file yields an empty encoded sequence, the
windowing step fails, and no attribution is produced. -/
theorem error_propagation_witness :
    make_subsequences [] UNKNOWN SEQ_LEN = none ∧
    attributeDoc (fun _ => none) (fun _ => (0 : ℚ)) (some []) = none :=
  ⟨(error_propagation.1 [] UNKNOWN).mpr (by decide),
   error_propagation.2.2 (fun _ => none) (fun _ => (0 : ℚ)) [] (by decide)⟩

/-! ### The linear pipeline order

The notebook is a straight-line script: cell 3 preprocesses, cell 5 fits the
tokenizer and then converts texts to sequences, cell 9 splits, cell 13
trains, cell 15 predicts.  The control flow is modelled as the fixed list of
stages in source order over a state recording which artifacts exist; each
stage reads exactly the artifacts its cell reads. -/

/-- The stages of the script, named after the source cells. -/
inductive Stage
  | preprocessStage
  | tokenizerFitStage
  | toSequencesStage
  | splitStage
  | trainStage
  | predictStage
deriving DecidableEq

/-- Which artifacts exist at a point of the run. -/
structure PipeState where
  texts : Bool
  tokenizerFitted : Bool
  sequences : Bool
  splits : Bool
  modelFitted : Bool
  predictions : Bool
deriving DecidableEq

/-- Before the script runs, nothing exists. -/
def initState : PipeState := ⟨false, false, false, false, false, false⟩

/-- One cell of the script: each artifact is produced from exactly the
artifacts the corresponding source cell reads. -/
def runStage (st : PipeState) : Stage → PipeState
  | .preprocessStage => { st with texts := true }
  | .tokenizerFitStage => { st with tokenizerFitted := st.texts }
  | .toSequencesStage => { st with sequences := st.tokenizerFitted && st.texts }
  | .splitStage => { st with splits := st.sequences }
  | .trainStage => { st with modelFitted := st.splits }
  | .predictStage => { st with predictions := st.modelFitted && st.tokenizerFitted }

/-- The cells in the order they execute in the source. -/
def scriptStages : List Stage :=
  [.preprocessStage, .tokenizerFitStage, .toSequencesStage, .splitStage,
   .trainStage, .predictStage]

/-- The state after the first `k` cells of the script have run to
completion. -/
def runScript (k : Nat) : PipeState :=
  (scriptStages.take k).foldl runStage initState

/-- C9: the pipeline executes in the fixed linear order preprocess →
tokenize → split → train → vote-predict, each stage consuming only outputs
of earlier stages: at every point of the run, sequences exist only if the
tokenizer was fitted on existing texts, the split only after the sequences,
the trained model only after the split, and predictions only after both
`model.fit` and the tokenizer fit — in particular no prediction on an
unknown paper is issued before training completed. -/
theorem pipeline_order (k : Nat) :
    ((runScript k).predictions = true → (runScript k).modelFitted = true) ∧
    ((runScript k).modelFitted = true → (runScript k).splits = true) ∧
    ((runScript k).splits = true → (runScript k).sequences = true) ∧
    ((runScript k).sequences = true → (runScript k).tokenizerFitted = true) ∧
    ((runScript k).tokenizerFitted = true → (runScript k).texts = true) := by
  have hbig : ∀ j, runScript (j + 6) = runScript 6 := by
    intro j
    unfold runScript scriptStages
    rw [List.take_of_length_le (by simp), List.take_of_length_le (by simp)]
  rcases k with _|_|_|_|_|_|j
  · exact ⟨by decide, by decide, by decide, by decide, by decide⟩
  · exact ⟨by decide, by decide, by decide, by decide, by decide⟩
  · exact ⟨by decide, by decide, by decide, by decide, by decide⟩
  · exact ⟨by decide, by decide, by decide, by decide, by decide⟩
  · exact ⟨by decide, by decide, by decide, by decide, by decide⟩
  · exact ⟨by decide, by decide, by decide, by decide, by decide⟩
  · rw [hbig j]
    exact ⟨by decide, by decide, by decide, by decide, by decide⟩

/-- Witness for C9 after the whole script: predictions exist and the model
was fitted. -/
theorem pipeline_order_witness : (runScript 6).modelFitted = true :=
  (pipeline_order 6).1 (by decide)

end AuthorAttribution

